import Mathlib

/-!
Verification of the natural-language reminder parser.

Shallow embedding of the NLP service (`parseRecurrence`, `parsePriority`,
`extractTitle`, `parseNaturalLanguage`, `formatParsedSummary`) of the Verso
reminders app, together with proofs and refutations of the specification's
claims about it.

Modelling conventions:
* JavaScript strings are Lean `String`s; the regex work is done on `List Char`.
* The JS regexes used by the source are embedded as `RE` values and executed by
  a backtracking matcher `mtch` with JavaScript semantics: leftmost position
  wins, alternation is ordered (left first), quantifiers are greedy,
  `\b` is a word boundary w.r.t. `[A-Za-z0-9_]`, `$` matches at the end.
  Every quantifier appearing in the source's patterns ranges over a single
  character class, so `+`/`*` are embedded as the dedicated constructors
  `plusCls`/`starCls`; `X?` is ordered alternation with the empty regex.
* All the relevant regexes carry the `i` flag, so literal characters compare
  case-insensitively (ASCII, matching `String.prototype.toLowerCase` on the
  inputs the app handles).
* `\s` is modelled as ASCII whitespace plus NBSP; `\w`/`\b` use ASCII
  word characters, exactly JS's `\w`.
* Instants (`Date` values) are integers counting milliseconds;
  `date-fns`' `addDays d 1` is `d + 86400000`, `addHours r 1` is
  `r + 3600000`, `isBefore a b` is `a < b`.
* The `chrono-node` date extractor is an external dependency, not code of this
  repository; `parseNaturalLanguage` is therefore parameterised by an abstract
  extractor `cp : String → Int → Option ChronoResult` standing for
  `chrono.parse(text, ref, { forwardDate: true })[0]`.
* JS numbers are IEEE-754 doubles.  The confidence arithmetic is modelled
  exactly: doubles are the rationals fixed by `roundDouble` (round to nearest,
  ties to even, over the exponent range the parser uses), `+` is `jsAdd`,
  `Math.min` is `min`.  `parseInt` on a string of decimal digits is modelled
  exactly on `ℕ`.
-/

namespace VersoNLP

/-- JS `\s` character class (ASCII whitespace plus no-break space). -/
def isSpc (c : Char) : Bool :=
  c = ' ' || c = '\t' || c = '\n' || c = '\r' || c = '\x0b' || c = '\x0c' || c = ' '

/-- JS `\w` character class: `[A-Za-z0-9_]`. -/
def isWordChar (c : Char) : Bool :=
  ('a' ≤ c && c ≤ 'z') || ('A' ≤ c && c ≤ 'Z') || ('0' ≤ c && c ≤ '9') || c = '_'

/-- JS `\d` character class. -/
def isDig (c : Char) : Bool := '0' ≤ c && c ≤ '9'

/-- ASCII lower-casing of one character (the fragment of
`String.prototype.toLowerCase` exercised by the app). -/
def lowChar (c : Char) : Char :=
  if _h : 'A' ≤ c ∧ c ≤ 'Z' then
    Char.ofNat (c.toNat + 32)
  else c

/-- ASCII upper-casing of one character (the fragment of
`String.prototype.toUpperCase` exercised by `extractTitle`). -/
def upChar (c : Char) : Char :=
  if _h : 'a' ≤ c ∧ c ≤ 'z' then
    Char.ofNat (c.toNat - 32)
  else c

/-- Embedded regular expressions, covering exactly the constructs used by the
source's patterns. -/
inductive RE : Type where
  /-- matches the empty string -/
  | eps : RE
  /-- case-insensitive literal character; stored lower-case -/
  | chr : Char → RE
  /-- character class -/
  | cls : (Char → Bool) → RE
  /-- concatenation -/
  | seq : RE → RE → RE
  /-- ordered alternation (left preferred, as in JS) -/
  | alt : RE → RE → RE
  /-- greedy `+` over a character class -/
  | plusCls : (Char → Bool) → RE
  /-- greedy `*` over a character class -/
  | starCls : (Char → Bool) → RE
  /-- the `\b` word-boundary assertion -/
  | wordB : RE
  /-- the `$` end anchor -/
  | eos : RE

/-- Is the (optional) previous character a word character? -/
def isWordOpt : Option Char → Bool
  | none => false
  | some c => isWordChar c

/-- Is the head of the remaining input a word character? -/
def isWordHead : List Char → Bool
  | [] => false
  | c :: _ => isWordChar c

/-- `\b` holds between the previous character and the rest of the input. -/
def atBoundary (prev : Option Char) (s : List Char) : Bool :=
  isWordOpt prev != isWordHead s

/-- Ordered concatenation-map used by the matcher (like `List.flatMap`,
defined locally so that its equations are under our control). -/
def catMap (f : α → List β) : List α → List β
  | [] => []
  | x :: t => f x ++ catMap f t

/-- All the ways a greedy class-`+` can match, longest first (JS order). -/
def plusSplits (f : Char → Bool) (_prev : Option Char) : List Char → List (Option Char × List Char)
  | [] => []
  | c :: t => if f c then plusSplits f (some c) t ++ [(some c, t)] else []

/-- The backtracking matcher.  `mtch r prev s` lists every way `r` can match a
prefix of `s`, as pairs (last consumed character, remaining input), in JS
preference order: the head of the list is the match JavaScript commits to. -/
def mtch : RE → Option Char → List Char → List (Option Char × List Char)
  | .eps, prev, s => [(prev, s)]
  | .chr _, _, [] => []
  | .chr c, _, h :: t => if lowChar h = c then [(some h, t)] else []
  | .cls _, _, [] => []
  | .cls f, _, h :: t => if f h then [(some h, t)] else []
  | .seq a b, prev, s => catMap (fun q => mtch b q.1 q.2) (mtch a prev s)
  | .alt a b, prev, s => mtch a prev s ++ mtch b prev s
  | .plusCls f, prev, s => plusSplits f prev s
  | .starCls f, prev, s => plusSplits f prev s ++ [(prev, s)]
  | .wordB, prev, s => if atBoundary prev s then [(prev, s)] else []
  | .eos, prev, s => match s with | [] => [(prev, s)] | _ :: _ => []

/-- Does `r` match somewhere in `s` starting at this position or later
(the `RegExp.prototype.test` loop)? -/
def hasMAux (r : RE) (prev : Option Char) : List Char → Bool
  | [] => (mtch r prev []).head?.isSome
  | c :: t => (mtch r prev (c :: t)).head?.isSome || hasMAux r (some c) t

/-- `re.test(s)`. -/
def hasM (r : RE) (s : List Char) : Bool := hasMAux r none s

/-- `s.replace(re_with_g_flag, "")`: scan left to right, delete the match
JavaScript commits to, continue after it (zero-width matches advance one
character, as JS does).  Structural recursion on a fuel argument so that the
kernel can evaluate it; every step strictly shortens the input, so fuel
`s.length + 1` is never exhausted. -/
def replAux : Nat → RE → Option Char → List Char → List Char
  | 0, _, _, s => s
  | _ + 1, _, _, [] => []
  | fuel + 1, r, prev, c :: t =>
    match (mtch r prev (c :: t)).head? with
    | some q =>
      if q.2.length < (c :: t).length then replAux fuel r q.1 q.2
      else c :: replAux fuel r (some c) t
    | none => c :: replAux fuel r (some c) t

/-- `s.replace(re, "")` with the `g` flag, from the start of the string. -/
def repl (r : RE) (s : List Char) : List Char := replAux (s.length + 1) r none s

/-! ## The source's regex patterns -/

/-- Case-insensitive literal word. -/
def lit (w : String) : RE :=
  w.data.foldr (fun c r => RE.seq (RE.chr (lowChar c)) r) RE.eps

/-- Concatenation of a list of regexes. -/
def cat (l : List RE) : RE := l.foldr RE.seq RE.eps

/-- Ordered alternation of a list of regexes (first preferred). -/
def alts : List RE → RE
  | [] => RE.cls fun _ => false
  | [r] => r
  | r :: rest => RE.alt r (alts rest)

/-- `X?` (greedy). -/
def opt (r : RE) : RE := RE.alt r RE.eps

/-- `\s+`. -/
def wsP : RE := RE.plusCls isSpc

/-- `\s*`. -/
def wsS : RE := RE.starCls isSpc

/-- `\d`. -/
def dig : RE := RE.cls isDig

/-- `days?`, `weeks?`, ... -/
def plural (w : String) : RE := cat [lit w, opt (RE.chr 's')]

/-- `TIME_PHRASES`:
`\b(at\s+\d{1,2}(:\d{2})?\s*(am|pm)?|starting\s+(today|tomorrow|next\s+\w+|on\s+\w+)|from\s+(today|tomorrow|next\s+\w+))\b`. -/
def TIME_PHRASES : RE :=
  cat [RE.wordB,
    alts [
      cat [lit "at", wsP, dig, opt dig, opt (cat [RE.chr ':', dig, dig]), wsS,
           opt (alts [lit "am", lit "pm"])],
      cat [lit "starting", wsP,
           alts [lit "today", lit "tomorrow",
                 cat [lit "next", wsP, RE.plusCls isWordChar],
                 cat [lit "on", wsP, RE.plusCls isWordChar]]],
      cat [lit "from", wsP,
           alts [lit "today", lit "tomorrow",
                 cat [lit "next", wsP, RE.plusCls isWordChar]]]],
    RE.wordB]

/-- `RECURRENCE_PHRASES`:
`\b(every\s+(single\s+)?(other\s+)?(day|daily|week|weekly|month|monthly|year|yearly|weekday|morning|evening|night|hour|hourly|\d+\s*(days?|weeks?|months?|years?|hours?))|daily|weekly|monthly|yearly|hourly)\b`. -/
def RECURRENCE_PHRASES : RE :=
  cat [RE.wordB,
    alts [
      cat [lit "every", wsP, opt (cat [lit "single", wsP]), opt (cat [lit "other", wsP]),
        alts [lit "day", lit "daily", lit "week", lit "weekly", lit "month", lit "monthly",
              lit "year", lit "yearly", lit "weekday", lit "morning", lit "evening",
              lit "night", lit "hour", lit "hourly",
              cat [RE.plusCls isDig, wsS,
                   alts [plural "day", plural "week", plural "month", plural "year",
                         plural "hour"]]]],
      lit "daily", lit "weekly", lit "monthly", lit "yearly", lit "hourly"],
    RE.wordB]

/-- `PRIORITY_PHRASES`: `\b(high\s+priority|urgent|important|low\s+priority|not\s+urgent)\b`. -/
def PRIORITY_PHRASES : RE :=
  cat [RE.wordB,
    alts [cat [lit "high", wsP, lit "priority"], lit "urgent", lit "important",
          cat [lit "low", wsP, lit "priority"], cat [lit "not", wsP, lit "urgent"]],
    RE.wordB]

/-- The residual date-phrase pattern stripped by `extractTitle`:
`\b(tomorrow|today|tonight|next\s+(week|month|monday|...|sunday)|on\s+(monday|...|sunday)|this\s+(morning|afternoon|evening|weekend))\b`. -/
def DATE_PHRASES : RE :=
  cat [RE.wordB,
    alts [lit "tomorrow", lit "today", lit "tonight",
      cat [lit "next", wsP,
           alts [lit "week", lit "month", lit "monday", lit "tuesday", lit "wednesday",
                 lit "thursday", lit "friday", lit "saturday", lit "sunday"]],
      cat [lit "on", wsP,
           alts [lit "monday", lit "tuesday", lit "wednesday", lit "thursday", lit "friday",
                 lit "saturday", lit "sunday"]],
      cat [lit "this", wsP,
           alts [lit "morning", lit "afternoon", lit "evening", lit "weekend"]]],
    RE.wordB]

/-- Standalone clock times: `\b\d{1,2}(:\d{2})?\s*(am|pm)\b`. -/
def CLOCK_TIMES : RE :=
  cat [RE.wordB, dig, opt dig, opt (cat [RE.chr ':', dig, dig]), wsS,
       alts [lit "am", lit "pm"], RE.wordB]

/-- Dangling trailing prepositions: `\b(at|by|before|after|around|from)\s*$`. -/
def TRAIL_PREP : RE :=
  cat [RE.wordB,
       alts [lit "at", lit "by", lit "before", lit "after", lit "around", lit "from"],
       wsS, RE.eos]

/-- Trailing `starting`/`from`/`beginning`: `\b(starting|from|beginning)\s*$`. -/
def TRAIL_START : RE :=
  cat [RE.wordB, alts [lit "starting", lit "from", lit "beginning"], wsS, RE.eos]

/-! ## Data model (`@/types/reminder` and the service's own interfaces) -/

/-- `RecurrenceType`. -/
inductive RecurrenceType : Type where
  | daily | weekly | monthly | yearly | hourly
  deriving DecidableEq, Repr

/-- `"low" | "medium" | "high"`. -/
inductive Priority : Type where
  | low | medium | high
  deriving DecidableEq, Repr

/-- `RecurrenceMatch` (also the shape of `ParsedReminder.recurrence`). -/
structure RecurrenceMatch : Type where
  type : RecurrenceType
  interval : Nat
  deriving DecidableEq, Repr

/-- The first `chrono-node` parse result: the resolved instant plus whether
`result.start.isCertain("hour")` / `isCertain("minute")` hold. -/
structure ChronoResult : Type where
  date : Int
  certainHour : Bool
  certainMinute : Bool
  deriving DecidableEq, Repr

/-- `ParsedReminder` (the `notes` field is declared optional in the source and
never populated by the parser, so it is omitted here). -/
structure ParsedReminder : Type where
  title : String
  datetime : Int
  recurrence : Option RecurrenceMatch
  priority : Priority
  confidence : ℚ
  deriving DecidableEq, Repr

/-! ## IEEE-754 double model for the confidence arithmetic

The source manipulates confidence with JS number literals, `+ 0.1` and
`Math.min`.  JS numbers are binary64 doubles, so the decimal literals and the
sums are *not* the exact decimal fractions; we model the doubles exactly as
rationals.  `roundDouble` rounds a positive rational to the nearest double
(ties to even) for values in `[2⁻⁵, 4)`, which covers every value the parser
produces. -/

/-- One binade `[lo, hi)` together with `2^(52-e)`, the factor turning a value
of exponent `e` into its 53-bit mantissa. -/
structure Binade : Type where
  lo : ℚ
  hi : ℚ
  scale : ℚ

/-- The binades for exponents `e = -5 … 1`. -/
def binades : List Binade :=
  [⟨1/32, 1/16, 2^57⟩, ⟨1/16, 1/8, 2^56⟩, ⟨1/8, 1/4, 2^55⟩, ⟨1/4, 1/2, 2^54⟩,
   ⟨1/2, 1, 2^53⟩, ⟨1, 2, 2^52⟩, ⟨2, 4, 2^51⟩]

/-- Round `q` to a 53-bit mantissa at the binade `b`, ties to even. -/
def roundAt (q : ℚ) (b : Binade) : ℚ :=
  let m : ℚ := q * b.scale
  let n : ℤ := ⌊m⌋
  let frac : ℚ := m - n
  let n' : ℤ :=
    if frac < 1/2 then n
    else if 1/2 < frac then n + 1
    else if n % 2 = 0 then n else n + 1
  (n' : ℚ) / b.scale

/-- Nearest double (ties to even) for `q ∈ [2⁻⁵, 4)`; identity outside that
range (never exercised by the parser). -/
def roundDouble (q : ℚ) : ℚ :=
  match binades.find? (fun b => b.lo ≤ q && q < b.hi) with
  | some b => roundAt q b
  | none => q

/-- IEEE addition of two doubles in the modelled range. -/
def jsAdd (a b : ℚ) : ℚ := roundDouble (a + b)

/-- The double denoted by the JS literal `0.1`. -/
def d01 : ℚ := roundDouble (1/10)

/-- The double denoted by the JS literal `0.3`. -/
def d03 : ℚ := roundDouble (3/10)

/-- The double denoted by the JS literal `0.4` (it equals `0.3 + 0.1` in JS). -/
def d04 : ℚ := roundDouble (4/10)

/-- The double denoted by the JS literal `0.5` (the dead initial confidence). -/
def d05 : ℚ := roundDouble (5/10)

/-- The double denoted by the JS literal `0.8`. -/
def d08 : ℚ := roundDouble (8/10)

/-- The double denoted by the JS literal `0.9`. -/
def d09 : ℚ := roundDouble (9/10)

/-! ## `parseRecurrence` -/

/-- Match a literal (already lower-case) word at the head of the input,
returning the rest. -/
def eatLit : List Char → List Char → Option (List Char)
  | [], s => some s
  | _ :: _, [] => none
  | w :: wt, c :: ct => if c = w then eatLit wt ct else none

/-- `\s+` at the head of the input (greedy; the following token in every use
site starts with a non-space, so maximal munch is exact). -/
def eatWs1 (s : List Char) : Option (List Char) :=
  let rest := s.dropWhile isSpc
  if rest.length < s.length then some rest else none

/-- `unitToType` for `(day|week|month|year|hour)`, applied where the source
does `typeMap[unit]` (the `|| "daily"` fallback is dead: every captured unit
is in the map). -/
def eatUnit5 : List Char → Option (RecurrenceType × List Char) :=
  fun s =>
    match eatLit "day".data s with
    | some r => some (.daily, r)
    | none =>
    match eatLit "week".data s with
    | some r => some (.weekly, r)
    | none =>
    match eatLit "month".data s with
    | some r => some (.monthly, r)
    | none =>
    match eatLit "year".data s with
    | some r => some (.yearly, r)
    | none =>
    match eatLit "hour".data s with
    | some r => some (.hourly, r)
    | none => none

/-- `every\s+other\s+(day|week|month|year|hour)` at one position. -/
def tryEveryOtherAt (s : List Char) : Option RecurrenceType := do
  let s ← eatLit "every".data s
  let s ← eatWs1 s
  let s ← eatLit "other".data s
  let s ← eatWs1 s
  let (t, _) ← eatUnit5 s
  pure t

/-- `lower.match(/every\s+other\s+(day|week|month|year|hour)/i)`, leftmost. -/
def scanEveryOther : List Char → Option RecurrenceType
  | [] => none
  | c :: t =>
    match tryEveryOtherAt (c :: t) with
    | some u => some u
    | none => scanEveryOther t

/-- `(days?|weeks?|months?|years?|hours?)` with the source's trailing
`unit.replace(/s$/, "")` applied: the captured unit, stripped of a plural `s`,
then sent through `typeMap`. -/
def eatUnitS (s : List Char) : Option RecurrenceType :=
  (eatUnit5 s).map Prod.fst

/-- `every\s+(\d+)\s*(days?|weeks?|months?|years?|hours?)` at one position:
capture the digits (greedy `\d+`), skip `\s*`, match the unit.  `parseInt` on
the captured digits is exact on `ℕ`. -/
def tryEveryNAt (s : List Char) : Option (Nat × RecurrenceType) := do
  let s ← eatLit "every".data s
  let s ← eatWs1 s
  let digits := s.takeWhile isDig
  if digits.isEmpty then none else
  let s := s.dropWhile isDig
  let s := s.dropWhile isSpc
  let t ← eatUnitS s
  pure (digits.foldl (fun n c => n * 10 + (c.toNat - 48)) 0, t)

/-- Leftmost match of the `everyN` pattern. -/
def scanEveryN : List Char → Option (Nat × RecurrenceType)
  | [] => none
  | c :: t =>
    match tryEveryNAt (c :: t) with
    | some u => some u
    | none => scanEveryN t

/-- The unit alternation of the `everyUnit` pattern, in source order
`(day|week|month|year|hour|morning|evening|night|weekday)` with the source's
`typeMap` applied (`morning`/`evening`/`night`/`weekday` ↦ `daily`).  Note
that `week` precedes `weekday`, and JS alternation is ordered, so an input
`weekday` is captured as `week`. -/
def eatUnit9 (s : List Char) : Option RecurrenceType :=
  match eatUnit5 s with
  | some (t, _) => some t
  | none =>
  match eatLit "morning".data s with
  | some _ => some .daily
  | none =>
  match eatLit "evening".data s with
  | some _ => some .daily
  | none =>
  match eatLit "night".data s with
  | some _ => some .daily
  | none =>
  match eatLit "weekday".data s with
  | some _ => some .daily
  | none => none

/-- `every\s+(?:single\s+)?(day|week|month|year|hour|morning|evening|night|weekday)`
at one position (the optional `single ` group is greedy and backtracks). -/
def tryEveryUnitAt (s : List Char) : Option RecurrenceType := do
  let s ← eatLit "every".data s
  let s ← eatWs1 s
  let withSingle := do
    let s1 ← eatLit "single".data s
    let s2 ← eatWs1 s1
    eatUnit9 s2
  match withSingle with
  | some t => some t
  | none => eatUnit9 s

/-- Leftmost match of the `everyUnit` pattern. -/
def scanEveryUnit : List Char → Option RecurrenceType
  | [] => none
  | c :: t =>
    match tryEveryUnitAt (c :: t) with
    | some u => some u
    | none => scanEveryUnit t

/-- `every\s+(sunday|monday|tuesday|wednesday|thursday|friday|saturday)` at one
position. -/
def tryWeekdayAt (s : List Char) : Option Unit := do
  let s ← eatLit "every".data s
  let s ← eatWs1 s
  if [("sunday" : String), "monday", "tuesday", "wednesday", "thursday", "friday",
      "saturday"].any (fun w => (eatLit w.data s).isSome)
  then pure () else none

/-- `.test` of the weekday pattern. -/
def scanWeekday : List Char → Bool
  | [] => false
  | c :: t => (tryWeekdayAt (c :: t)).isSome || scanWeekday t

/-- `\bdaily\b` and friends. -/
def kwRE (w : String) : RE := cat [RE.wordB, lit w, RE.wordB]

/-- `parseRecurrence`: extract recurrence info from natural language text,
trying the source's five rule groups in order, first match wins. -/
def parseRecurrence (text : String) : Option RecurrenceMatch :=
  let lower := text.data.map lowChar
  match scanEveryOther lower with
  | some t => some ⟨t, 2⟩
  | none =>
  match scanEveryN lower with
  | some (n, t) => some ⟨t, n⟩
  | none =>
  match scanEveryUnit lower with
  | some t => some ⟨t, 1⟩
  | none =>
  if hasM (kwRE "daily") lower then some ⟨.daily, 1⟩
  else if hasM (kwRE "weekly") lower then some ⟨.weekly, 1⟩
  else if hasM (kwRE "monthly") lower then some ⟨.monthly, 1⟩
  else if hasM (kwRE "yearly") lower then some ⟨.yearly, 1⟩
  else if hasM (kwRE "hourly") lower then some ⟨.hourly, 1⟩
  else if scanWeekday lower then some ⟨.weekly, 1⟩
  else none

/-! ## `parsePriority` -/

/-- `\b(urgent|high\s*priority|important|asap|critical)\b`. -/
def HIGH_PRIORITY_RE : RE :=
  cat [RE.wordB,
       alts [lit "urgent", cat [lit "high", wsS, lit "priority"], lit "important",
             lit "asap", lit "critical"],
       RE.wordB]

/-- `\b(low\s*priority|not\s*urgent|whenever|no\s*rush)\b`. -/
def LOW_PRIORITY_RE : RE :=
  cat [RE.wordB,
       alts [cat [lit "low", wsS, lit "priority"], cat [lit "not", wsS, lit "urgent"],
             lit "whenever", cat [lit "no", wsS, lit "rush"]],
       RE.wordB]

/-- `parsePriority`: extract priority from natural language text (total;
high keywords take precedence over low ones). -/
def parsePriority (text : String) : Priority :=
  let lower := text.data.map lowChar
  if hasM HIGH_PRIORITY_RE lower then .high
  else if hasM LOW_PRIORITY_RE lower then .low
  else .medium

/-! ## `extractTitle` -/

/-- Drop the maximal run of class-`p` characters at the end of the list. -/
def dropTrail (p : Char → Bool) (l : List Char) : List Char :=
  (l.reverse.dropWhile p).reverse

/-- Leading-whitespace-and-trailing-whitespace trim (`String.prototype.trim`
restricted to the whitespace the app meets). -/
def jsTrimL (s : List Char) : List Char :=
  dropTrail isSpc (s.dropWhile isSpc)

/-- The character class `[\s,\-–—]` of the source's punctuation trim. -/
def isPunc (c : Char) : Bool :=
  isSpc c || c = ',' || c = '-' || c = '–' || c = '—'

/-- `title.replace(/^[\s,\-–—]+|[\s,\-–—]+$/g, "")`: with the `g` flag this
removes the maximal run of class characters at each end (and nothing in the
middle), i.e. it trims both ends. -/
def puncTrim (s : List Char) : List Char :=
  dropTrail isPunc (s.dropWhile isPunc)

/-- `title.replace(/\s+/g, " ")`: each maximal whitespace run becomes one
space.  The flag records whether the previous character was part of a run. -/
def collapseAux (prevSpace : Bool) : List Char → List Char
  | [] => []
  | c :: t =>
    if isSpc c then
      if prevSpace then collapseAux true t else ' ' :: collapseAux true t
    else c :: collapseAux false t

/-- Whitespace collapsing from the start of the string. -/
def collapseWs (s : List Char) : List Char := collapseAux false s

/-- `title.charAt(0).toUpperCase() + title.slice(1)` (applied only when the
title is non-empty; on the empty list it is the identity, as in the source). -/
def capitalize : List Char → List Char
  | [] => []
  | c :: t => upChar c :: t

/-- The seven destructive stripping passes of `extractTitle`, in source
order. -/
def stripAll (s : List Char) : List Char :=
  repl TRAIL_START
    (repl TRAIL_PREP
      (repl CLOCK_TIMES
        (repl DATE_PHRASES
          (repl PRIORITY_PHRASES
            (repl TIME_PHRASES
              (repl RECURRENCE_PHRASES s))))))

/-- The whitespace/punctuation/capitalisation normalisation tail of
`extractTitle`. -/
def normTitle (s : List Char) : List Char :=
  capitalize (jsTrimL (puncTrim (jsTrimL (collapseWs s))))

/-- `extractTitle`: clean up the title by removing date/time/recurrence/priority
phrases, then normalise whitespace, punctuation and capitalisation. -/
def extractTitle (text : String) : String :=
  String.mk (normTitle (stripAll text.data))

/-! ## `parseNaturalLanguage` and `formatParsedSummary` -/

/-- `input.trim()`. -/
def jsTrimS (s : String) : String := String.mk (jsTrimL s.data)

/-- One day and one hour in milliseconds. -/
def msPerDay : Int := 86400000

/-- One hour in milliseconds. -/
def msPerHour : Int := 3600000

/-- `parseNaturalLanguage input referenceDate`: parse a natural language
string into a structured reminder.  `cp` is the external `chrono-node`
extractor (see the module docstring); the reference date is explicit (the
source defaults it to `new Date()`).  The source's initial `confidence = 0.5`
is dead: both branches of the chrono case overwrite it. -/
def parseNaturalLanguage (cp : String → Int → Option ChronoResult)
    (input : String) (ref : Int) : Option ParsedReminder :=
  if jsTrimS input = "" then none
  else
    let text := jsTrimS input
    let dtConf : Int × ℚ :=
      match cp text ref with
      | some res =>
        let conf0 : ℚ := if res.certainHour || res.certainMinute then d09 else d08
        let dt1 : Int := if res.date < ref then res.date + msPerDay else res.date
        (dt1, conf0)
      | none => (ref + msPerHour, d03)
    let recurrence := parseRecurrence text
    let confidence : ℚ :=
      if recurrence.isSome then min (jsAdd dtConf.2 d01) 1 else dtConf.2
    let priority := parsePriority text
    let title := extractTitle text
    if title = "" then none
    else some { title := title, datetime := dtConf.1, recurrence := recurrence,
                priority := priority, confidence := confidence }

/-- Rendering of a `RecurrenceType` (the TS string union value). -/
def recTypeStr : RecurrenceType → String
  | .daily => "daily" | .weekly => "weekly" | .monthly => "monthly"
  | .yearly => "yearly" | .hourly => "hourly"

/-- The `unitMap` of `formatParsedSummary` (total on the five types, so the
`|| type` fallback is dead). -/
def unitStr : RecurrenceType → String
  | .daily => "days" | .weekly => "weeks" | .monthly => "months"
  | .yearly => "years" | .hourly => "hours"

/-- Rendering of a `Priority`. -/
def prioStr : Priority → String
  | .low => "low" | .medium => "medium" | .high => "high"

/-- The `parts` array built by `formatParsedSummary`.  `sameDay a b` models
`new Date(a).toDateString() === new Date(b).toDateString()` and
`fmtTime`/`fmtDate` model the two locale-dependent formatters — all three are
external host behaviour, taken as parameters. -/
def summaryParts (sameDay : Int → Int → Bool) (fmtTime fmtDate : Int → String)
    (now : Int) (p : ParsedReminder) : List String :=
  let timeStr := fmtTime p.datetime
  let dtPart :=
    if sameDay p.datetime now then "today at " ++ timeStr
    else if sameDay p.datetime (now + msPerDay) then "tomorrow at " ++ timeStr
    else fmtDate p.datetime ++ " at " ++ timeStr
  let recPart : List String :=
    match p.recurrence with
    | some m =>
      if m.interval = 1 then ["repeating " ++ recTypeStr m.type]
      else ["repeating every " ++ toString m.interval ++ " " ++ unitStr m.type]
    | none => []
  let prioPart : List String :=
    if p.priority = .medium then [] else ["(" ++ prioStr p.priority ++ " priority)"]
  ["\"" ++ p.title ++ "\""] ++ [dtPart] ++ recPart ++ prioPart

/-- `parts.join(" · ")`. -/
def joinParts : List String → String
  | [] => ""
  | [a] => a
  | a :: rest => a ++ " · " ++ joinParts rest

/-- `formatParsedSummary`: generate a human-readable summary of a parsed
reminder (total — it cannot throw). -/
def formatParsedSummary (sameDay : Int → Int → Bool) (fmtTime fmtDate : Int → String)
    (now : Int) (p : ParsedReminder) : String :=
  joinParts (summaryParts sameDay fmtTime fmtDate now p)

/-- The constant `chrono` stub for reference inputs that contain no date/time
expression. -/
def cpNone : String → Int → Option ChronoResult := fun _ _ => none

/-! ## Normalisation invariants (used to settle the idempotence claim) -/

/-- Every whitespace character in the list is a plain space. -/
def spaceOnly (l : List Char) : Prop := ∀ c ∈ l, isSpc c = true → c = ' '

/-- No two adjacent plain spaces. -/
def noDup (l : List Char) : Prop := l.Chain' (fun a b => ¬(a = ' ' ∧ b = ' '))

/-- Word-boundary keyword test `\bw\b` for a single keyword, the unit the
specification's "contains keyword w" decomposes into. -/
def kwFlex2 (a b : String) : RE := cat [RE.wordB, cat [lit a, wsS, lit b], RE.wordB]

/-- The five high-priority keywords of the claim, each tested independently
(multi-word keywords with the code's flexible `\s*` between the words). -/
def highKwHit (l : List Char) : Prop :=
  hasM (kwRE "urgent") l = true ∨ hasM (kwFlex2 "high" "priority") l = true ∨
  hasM (kwRE "important") l = true ∨ hasM (kwRE "asap") l = true ∨
  hasM (kwRE "critical") l = true

/-- The four low-priority keywords of the claim, each tested independently. -/
def lowKwHit (l : List Char) : Prop :=
  hasM (kwFlex2 "low" "priority") l = true ∨ hasM (kwFlex2 "not" "urgent") l = true ∨
  hasM (kwRE "whenever") l = true ∨ hasM (kwFlex2 "no" "rush") l = true

/-! ## Values of the modelled doubles

The five doubles reachable as confidence values, as explicit rationals,
together with the IEEE facts the parser's arithmetic relies on: in binary64,
`0.3 + 0.1 = 0.4`, `0.8 + 0.1 = 0.9` and `0.9 + 0.1 = 1` hold *exactly*
(each sum rounds to the double denoted by the right-hand literal). -/

theorem d01_val : d01 = 3602879701896397 / 36028797018963968 := by
  norm_num [d01, roundDouble, binades, List.find?, roundAt]

theorem d03_val : d03 = 5404319552844595 / 18014398509481984 := by
  norm_num [d03, roundDouble, binades, List.find?, roundAt]

theorem d04_val : d04 = 3602879701896397 / 9007199254740992 := by
  norm_num [d04, roundDouble, binades, List.find?, roundAt]

theorem d08_val : d08 = 3602879701896397 / 4503599627370496 := by
  norm_num [d08, roundDouble, binades, List.find?, roundAt]

theorem d09_val : d09 = 8106479329266893 / 9007199254740992 := by
  norm_num [d09, roundDouble, binades, List.find?, roundAt]

theorem jsAdd_d03_d01 : jsAdd d03 d01 = d04 := by
  norm_num [jsAdd, d03_val, d01_val, d04_val, roundDouble, binades, List.find?, roundAt]

theorem jsAdd_d08_d01 : jsAdd d08 d01 = d09 := by
  norm_num [jsAdd, d08_val, d01_val, d09_val, roundDouble, binades, List.find?, roundAt]

theorem jsAdd_d09_d01 : jsAdd d09 d01 = 1 := by
  norm_num [jsAdd, d09_val, d01_val, roundDouble, binades, List.find?, roundAt]

theorem min_jsAdd_d03_d01 : min (jsAdd d03 d01) 1 = d04 := by
  rw [jsAdd_d03_d01, min_eq_left]
  rw [d04_val]; norm_num

theorem min_jsAdd_d08_d01 : min (jsAdd d08 d01) 1 = d09 := by
  rw [jsAdd_d08_d01, min_eq_left]
  rw [d09_val]; norm_num

theorem min_jsAdd_d09_d01 : min (jsAdd d09 d01) 1 = 1 := by
  rw [jsAdd_d09_d01]; exact min_self 1

/-! ## The claims -/

/-- **C1.** The claim states that any recurrence returned by `parseRecurrence`
has interval ≥ 1, a zero captured count being treated as "pattern did not
match".  The code violates this: the `every\s+(\d+)\s*(days?|…)` rule passes
the captured digits straight through `parseInt`, so `"every 0 days"` matches
and yields `{type: daily, interval: 0}` — the interval invariant the
specification demands (and its §7 requirement that zero captures be treated as
a non-match) is broken by the code. -/
theorem parseRecurrence_every_zero_days :
    parseRecurrence "every 0 days" = some ⟨RecurrenceType.daily, 0⟩ := rfl

/-- **C7.** Evaluation of `parseRecurrence`'s rule table.  Two of its
conjuncts exhibit divergences from the claim, both slips of the code:
`"every 0 days"` matches rule (2) with interval 0 (the claim requires a
positive `N`, hence "otherwise none"), and `"every weekday"` yields
`weekly` — the alternation `(day|week|…|weekday)` is ordered, `week` precedes
`weekday` and matches as a prefix of it, so the `weekday ↦ daily` entry of the
code's own `typeMap` (commented "Approximate — daily for now") is unreachable.
The remaining conjuncts confirm the claimed rule order on inputs where several
rules overlap: rule (1) beats the standalone keyword, rule (2) beats an
earlier standalone keyword in the text, rule (4) beats rule (5). -/
theorem parseRecurrence_rule_order :
    parseRecurrence "every weekday" = some ⟨RecurrenceType.weekly, 1⟩ ∧
    parseRecurrence "team standup every weekday at 9:15am" = some ⟨RecurrenceType.weekly, 1⟩ ∧
    parseRecurrence "every 0 days" = some ⟨RecurrenceType.daily, 0⟩ ∧
    parseRecurrence "every other week daily" = some ⟨RecurrenceType.weekly, 2⟩ ∧
    parseRecurrence "weekly every 3 days" = some ⟨RecurrenceType.daily, 3⟩ ∧
    parseRecurrence "water plants every 3 days at 8am" = some ⟨RecurrenceType.daily, 3⟩ ∧
    parseRecurrence "every single morning" = some ⟨RecurrenceType.daily, 1⟩ ∧
    parseRecurrence "every night" = some ⟨RecurrenceType.daily, 1⟩ ∧
    parseRecurrence "monthly" = some ⟨RecurrenceType.monthly, 1⟩ ∧
    parseRecurrence "every sunday daily" = some ⟨RecurrenceType.daily, 1⟩ ∧
    parseRecurrence "every sunday" = some ⟨RecurrenceType.weekly, 1⟩ ∧
    parseRecurrence "book club" = none :=
  ⟨rfl, rfl, rfl, rfl, rfl, rfl, rfl, rfl, rfl, rfl, rfl, rfl⟩

/-- **C2, counterexample.** The claim says a successful parse's title never
contains a recognized priority phrase, `extractTitle` stripping the same
keyword set `parsePriority` matches.  It does not: on `"submit report asap"`
the parse succeeds, the returned title is `"Submit report asap"` — which ends
with the phrase `"asap"` verbatim — and `parsePriority` recognizes that very
title as high priority. -/
theorem parse_title_keeps_asap :
    parseNaturalLanguage cpNone "submit report asap" 0 =
      some ⟨"Submit report asap", 3600000, none, Priority.high, d03⟩ ∧
    ("Submit report asap" : String) = "Submit report " ++ "asap" ∧
    parsePriority "Submit report asap" = Priority.high :=
  ⟨rfl, rfl, rfl⟩

/-- **C2, amended.** `extractTitle` strips exactly the five phrases of
`PRIORITY_PHRASES` (`high priority`, `urgent`, `important`, `low priority`,
`not urgent`); the keywords `asap`, `critical`, `whenever`, `no rush`, which
`parsePriority` also recognizes, are not stripped and remain in the title
verbatim. -/
theorem extractTitle_priority_stripping :
    (extractTitle "pay bills urgent" = "Pay bills" ∧
     extractTitle "pay bills high priority" = "Pay bills" ∧
     extractTitle "pay bills important" = "Pay bills" ∧
     extractTitle "pay bills low priority" = "Pay bills" ∧
     extractTitle "pay bills not urgent" = "Pay bills") ∧
    (extractTitle "pay bills asap" = "Pay bills asap" ∧
       parsePriority "pay bills asap" = Priority.high) ∧
    (extractTitle "pay bills critical" = "Pay bills critical" ∧
       parsePriority "pay bills critical" = Priority.high) ∧
    (extractTitle "pay bills whenever" = "Pay bills whenever" ∧
       parsePriority "pay bills whenever" = Priority.low) ∧
    (extractTitle "pay bills no rush" = "Pay bills no rush" ∧
       parsePriority "pay bills no rush" = Priority.low) :=
  ⟨⟨rfl, rfl, rfl, rfl, rfl⟩, ⟨rfl, rfl⟩, ⟨rfl, rfl⟩, ⟨rfl, rfl⟩, ⟨rfl, rfl⟩⟩

/-- **C6, counterexample.** `extractTitle` is not idempotent: stripping can
manufacture a new strippable phrase.  On `"every tomorrow day"` the first pass
only removes the date word `tomorrow` ("every tomorrow day" matches no
recurrence pattern), whitespace collapsing then glues the remainder into
`"Every day"` — and a second pass strips that whole phrase, leaving `""`. -/
theorem extractTitle_not_idempotent :
    extractTitle "every tomorrow day" = "Every day" ∧
    extractTitle (extractTitle "every tomorrow day") = "" ∧
    ("" : String) ≠ "Every day" :=
  ⟨rfl, rfl, by decide⟩

/-- **C3.** `parseNaturalLanguage` fails (returns `null`) exactly when the
input trims to the empty string or the extracted title is empty; the
embedding is a total function of its inputs, so no other input can fail and
no call can throw — unmatched date/recurrence/priority patterns merely
produce the default datetime, `none`, and `medium`. -/
theorem parseNaturalLanguage_none_iff (cp : String → Int → Option ChronoResult)
    (input : String) (ref : Int) :
    parseNaturalLanguage cp input ref = none ↔
      jsTrimS input = "" ∨ extractTitle (jsTrimS input) = "" := by
  by_cases h1 : jsTrimS input = ""
  · simp [parseNaturalLanguage, h1]
  · by_cases h2 : extractTitle (jsTrimS input) = ""
    · simp [parseNaturalLanguage, h1, h2]
    · simp [parseNaturalLanguage, h1, h2]

/-- Helper: the shape of every successful parse — each field of the result in
terms of the sub-extractors, with the datetime/confidence pair split by the
chrono outcome. -/
theorem parse_some_spec (cp : String → Int → Option ChronoResult)
    (input : String) (ref : Int) (r : ParsedReminder)
    (h : parseNaturalLanguage cp input ref = some r) :
    r.title = extractTitle (jsTrimS input) ∧
    r.recurrence = parseRecurrence (jsTrimS input) ∧
    r.priority = parsePriority (jsTrimS input) ∧
    (∀ res, cp (jsTrimS input) ref = some res →
      r.datetime = (if res.date < ref then res.date + msPerDay else res.date) ∧
      r.confidence =
        (if (parseRecurrence (jsTrimS input)).isSome
         then min (jsAdd (if res.certainHour || res.certainMinute then d09 else d08) d01) 1
         else (if res.certainHour || res.certainMinute then d09 else d08))) ∧
    (cp (jsTrimS input) ref = none →
      r.datetime = ref + msPerHour ∧
      r.confidence =
        (if (parseRecurrence (jsTrimS input)).isSome
         then min (jsAdd d03 d01) 1 else d03)) := by
  simp only [parseNaturalLanguage] at h
  split at h
  · exact absurd h (by simp)
  · split at h
    · exact absurd h (by simp)
    · obtain rfl := (Option.some.inj h).symm
      refine ⟨rfl, rfl, rfl, ?_, ?_⟩
      · intro res hres
        rw [hres]
        exact ⟨rfl, rfl⟩
      · intro hnone
        rw [hnone]
        exact ⟨rfl, rfl⟩

/-- **C4.** Confidence and datetime policy of `parseNaturalLanguage`: an
extractor hit with an explicitly stated hour or minute gives base confidence
`0.9`; a hit without one gives `0.8`; a miss sets the datetime to the
reference instant plus one hour with base confidence `0.3`; a matched
recurrence adds `0.1`, capped at `1` (all constants being the IEEE doubles the
JS literals denote). -/
theorem parseNaturalLanguage_confidence_policy (cp : String → Int → Option ChronoResult)
    (input : String) (ref : Int) (r : ParsedReminder)
    (h : parseNaturalLanguage cp input ref = some r) :
    (∀ res, cp (jsTrimS input) ref = some res →
      ((res.certainHour || res.certainMinute) = true →
        r.confidence = if (parseRecurrence (jsTrimS input)).isSome
          then min (jsAdd d09 d01) 1 else d09) ∧
      ((res.certainHour || res.certainMinute) = false →
        r.confidence = if (parseRecurrence (jsTrimS input)).isSome
          then min (jsAdd d08 d01) 1 else d08)) ∧
    (cp (jsTrimS input) ref = none →
      r.datetime = ref + msPerHour ∧
      r.confidence = if (parseRecurrence (jsTrimS input)).isSome
        then min (jsAdd d03 d01) 1 else d03) := by
  obtain ⟨-, -, -, hsome, hnone⟩ := parse_some_spec cp input ref r h
  refine ⟨fun res hres => ?_, hnone⟩
  obtain ⟨-, hconf⟩ := hsome res hres
  constructor
  · intro hc; rw [hconf, hc]; simp
  · intro hc; rw [hconf, hc]; simp

/-- Witness for C4 at a concrete input: `"buy milk"` has no date/time content
and no recurrence, so the datetime defaults to `ref + 1 hour` and the
confidence is the double `0.3`. -/
theorem parseNaturalLanguage_confidence_policy_witness :
    ∃ r, parseNaturalLanguage cpNone "buy milk" 0 = some r ∧
      r.datetime = 0 + msPerHour ∧ r.confidence = d03 := by
  have h : parseNaturalLanguage cpNone "buy milk" 0 =
      some ⟨"Buy milk", 3600000, none, Priority.medium, d03⟩ := rfl
  obtain ⟨hdt, hconf⟩ :=
    (parseNaturalLanguage_confidence_policy cpNone "buy milk" 0 _ h).2 rfl
  refine ⟨_, h, hdt, ?_⟩
  rw [hconf]
  have : (parseRecurrence (jsTrimS "buy milk")).isSome = false := rfl
  rw [this]
  simp

/-- **C5.** Forward-only resolution: whenever the extractor resolves an
instant strictly before the reference `ref`, the parser advances it by exactly
one day, preserving the time of day (the instant modulo `msPerDay`); an
instant not in the past is kept as is; consequently any resolved instant less
than one day in the past (e.g. a bare time earlier the same day) ends at or
after `ref`. -/
theorem parseNaturalLanguage_forward_only (cp : String → Int → Option ChronoResult)
    (input : String) (ref : Int) (r : ParsedReminder) (res : ChronoResult)
    (h : parseNaturalLanguage cp input ref = some r)
    (hres : cp (jsTrimS input) ref = some res) :
    (res.date < ref →
      r.datetime = res.date + msPerDay ∧ r.datetime % msPerDay = res.date % msPerDay) ∧
    (ref ≤ res.date → r.datetime = res.date) ∧
    (ref - msPerDay ≤ res.date → ref ≤ r.datetime) := by
  obtain ⟨-, -, -, hsome, -⟩ := parse_some_spec cp input ref r h
  obtain ⟨hdt, -⟩ := hsome res hres
  by_cases hlt : res.date < ref
  · rw [if_pos hlt] at hdt
    refine ⟨fun _ => ⟨hdt, ?_⟩, fun hge => absurd hlt (by omega), fun hb => ?_⟩
    · rw [hdt]; unfold msPerDay; omega
    · rw [hdt]; unfold msPerDay at *; omega
  · rw [if_neg hlt] at hdt
    exact ⟨fun hc => absurd hc hlt, fun _ => hdt, fun _ => by rw [hdt]; omega⟩

/-- Witness for C5: `"wake me at 3am"` with the extractor resolving 03:00
(10800000 ms) against a reference of 05:00 (18000000 ms) — the parse pushes
the datetime to 03:00 the next day (97200000 ms), at or after the
reference. -/
theorem parseNaturalLanguage_forward_only_witness :
    ∃ r, parseNaturalLanguage (fun _ _ => some ⟨10800000, true, false⟩)
        "wake me at 3am" 18000000 = some r ∧
      r.datetime = 10800000 + msPerDay ∧ (18000000 : Int) ≤ r.datetime := by
  have h : parseNaturalLanguage (fun _ _ => some ⟨10800000, true, false⟩)
      "wake me at 3am" 18000000 =
      some ⟨"Wake me", 97200000, none, Priority.medium, d09⟩ := rfl
  have spec := parseNaturalLanguage_forward_only
    (fun _ _ => some ⟨10800000, true, false⟩) "wake me at 3am" 18000000 _
    ⟨10800000, true, false⟩ h rfl
  obtain ⟨hdt, -⟩ := spec.1 (by decide)
  exact ⟨_, h, hdt, spec.2.2 (by decide)⟩

/-- **C10.** Every successful parse has one of exactly five confidence values
— the doubles `0.3`, `0.4`, `0.8`, `0.9` and `1` — because in binary64
`0.3 + 0.1`, `0.8 + 0.1` and `0.9 + 0.1` round exactly to `0.4`, `0.9` and
`1`; the five values are pairwise distinct. -/
theorem parseNaturalLanguage_confidence_five_values (cp : String → Int → Option ChronoResult)
    (input : String) (ref : Int) (r : ParsedReminder)
    (h : parseNaturalLanguage cp input ref = some r) :
    (r.confidence = d03 ∨ r.confidence = d04 ∨ r.confidence = d08 ∨
      r.confidence = d09 ∨ r.confidence = 1) ∧
    [d03, d04, d08, d09, (1 : ℚ)].Pairwise (· ≠ ·) := by
  constructor
  · obtain ⟨-, -, -, hsome, hnone⟩ := parse_some_spec cp input ref r h
    cases hcp : cp (jsTrimS input) ref with
    | none =>
      obtain ⟨-, hconf⟩ := hnone hcp
      rw [hconf]
      by_cases hr : (parseRecurrence (jsTrimS input)).isSome
      · rw [if_pos hr, min_jsAdd_d03_d01]; tauto
      · rw [if_neg hr]; tauto
    | some res =>
      obtain ⟨-, hconf⟩ := hsome res hcp
      rw [hconf]
      by_cases hc : (res.certainHour || res.certainMinute) = true
      · simp only [hc, if_true]
        by_cases hr : (parseRecurrence (jsTrimS input)).isSome
        · rw [if_pos hr, min_jsAdd_d09_d01]; tauto
        · rw [if_neg hr]; tauto
      · rw [Bool.not_eq_true] at hc
        simp only [hc, Bool.false_eq_true, if_false]
        by_cases hr : (parseRecurrence (jsTrimS input)).isSome
        · rw [if_pos hr, min_jsAdd_d08_d01]; tauto
        · rw [if_neg hr]; tauto
  · rw [d03_val, d04_val, d08_val, d09_val]
    norm_num

/-- Witness for C10: a date-only hit (`certainHour = certainMinute = false`)
plus a matched recurrence produces confidence `0.8 + 0.1`, which is one of the
five doubles (namely `0.9`). -/
theorem parseNaturalLanguage_confidence_five_values_witness :
    parseNaturalLanguage (fun _ _ => some ⟨0, false, false⟩) "water plants every 3 days" 0 =
      some ⟨"Water plants", 0, some ⟨RecurrenceType.daily, 3⟩, Priority.medium,
            min (jsAdd d08 d01) 1⟩ ∧
    (min (jsAdd d08 d01) 1 = d03 ∨ min (jsAdd d08 d01) 1 = d04 ∨
      min (jsAdd d08 d01) 1 = d08 ∨ min (jsAdd d08 d01) 1 = d09 ∨
      min (jsAdd d08 d01) 1 = 1) := by
  have h : parseNaturalLanguage (fun _ _ => some ⟨0, false, false⟩)
      "water plants every 3 days" 0 =
      some ⟨"Water plants", 0, some ⟨RecurrenceType.daily, 3⟩, Priority.medium,
            min (jsAdd d08 d01) 1⟩ := rfl
  exact ⟨h, (parseNaturalLanguage_confidence_five_values _ _ _ _ h).1⟩

/-! ### Character facts -/

theorem char_eq_iff_toNat {c d : Char} : c = d ↔ c.toNat = d.toNat :=
  ⟨congrArg _, fun h => Char.ext (UInt32.toNat.inj h)⟩

theorem char_le_iff_toNat {c d : Char} : c ≤ d ↔ c.toNat ≤ d.toNat :=
  ⟨fun h => h, fun h => h⟩

theorem upChar_toNat_of_lower {c : Char} (h : 'a' ≤ c ∧ c ≤ 'z') :
    (upChar c).toNat = c.toNat - 32 := by
  have h1 : 97 ≤ c.toNat := char_le_iff_toNat.mp h.1
  have h2 : c.toNat ≤ 122 := char_le_iff_toNat.mp h.2
  rw [upChar, dif_pos h, Char.ofNat, dif_pos (Or.inl (by omega))]
  rfl

theorem upChar_eq_of_not_lower {c : Char} (h : ¬('a' ≤ c ∧ c ≤ 'z')) : upChar c = c :=
  dif_neg h

theorem isPunc_false_of_range {c : Char} (h1 : 65 ≤ c.toNat) (h2 : c.toNat ≤ 122) :
    isPunc c = false := by
  have hne : ∀ d : Char, d.toNat < 65 ∨ 122 < d.toNat → c ≠ d := by
    intro d hd he; rw [char_eq_iff_toNat] at he; omega
  simp only [isPunc, isSpc]
  rw [decide_eq_false (hne ' ' (by decide)), decide_eq_false (hne '\t' (by decide)),
      decide_eq_false (hne '\n' (by decide)), decide_eq_false (hne '\r' (by decide)),
      decide_eq_false (hne '\x0b' (by decide)), decide_eq_false (hne '\x0c' (by decide)),
      decide_eq_false (hne '\u00A0' (by decide)), decide_eq_false (hne ',' (by decide)),
      decide_eq_false (hne '-' (by decide)), decide_eq_false (hne '–' (by decide)),
      decide_eq_false (hne '—' (by decide))]
  rfl

theorem isSpc_false_of_range {c : Char} (h1 : 65 ≤ c.toNat) (h2 : c.toNat ≤ 122) :
    isSpc c = false := by
  have h := isPunc_false_of_range h1 h2
  rw [isPunc] at h
  simp only [Bool.or_eq_false_iff] at h
  exact h.1.1.1.1

theorem lower_toNat {c : Char} (h : 'a' ≤ c ∧ c ≤ 'z') :
    97 ≤ c.toNat ∧ c.toNat ≤ 122 := by
  have h1 := char_le_iff_toNat.mp h.1
  have h2 := char_le_iff_toNat.mp h.2
  rw [show ('a').toNat = 97 from rfl] at h1
  rw [show ('z').toNat = 122 from rfl] at h2
  exact ⟨h1, h2⟩

theorem upChar_upChar (c : Char) : upChar (upChar c) = upChar c := by
  by_cases h : 'a' ≤ c ∧ c ≤ 'z'
  · have ht := upChar_toNat_of_lower h
    obtain ⟨h1, h2⟩ := lower_toNat h
    refine upChar_eq_of_not_lower ?_
    intro hc
    obtain ⟨h3, -⟩ := lower_toNat hc
    omega
  · rw [upChar_eq_of_not_lower h, upChar_eq_of_not_lower h]

theorem isPunc_upChar_false {c : Char} (h : isPunc c = false) : isPunc (upChar c) = false := by
  by_cases hl : 'a' ≤ c ∧ c ≤ 'z'
  · have ht := upChar_toNat_of_lower hl
    obtain ⟨h1, h2⟩ := lower_toNat hl
    exact isPunc_false_of_range (by omega) (by omega)
  · rw [upChar_eq_of_not_lower hl]; exact h

theorem isSpc_upChar_false {c : Char} (h : isPunc c = false) : isSpc (upChar c) = false := by
  have h2 := isPunc_upChar_false h
  rw [isPunc] at h2
  simp only [Bool.or_eq_false_iff] at h2
  exact h2.1.1.1.1


/-! ### Normalisation invariants -/

theorem isSpc_false_ne_space {c : Char} (h : isSpc c = false) : c ≠ ' ' := by
  intro he; subst he; simp [isSpc] at h

theorem isPunc_elim_isSpc {c : Char} (h : isPunc c = false) : isSpc c = false := by
  rw [isPunc] at h
  simp only [Bool.or_eq_false_iff] at h
  exact h.1.1.1.1

theorem spaceOnly_collapseAux (l : List Char) : ∀ b, spaceOnly (collapseAux b l) := by
  induction l with
  | nil => intro b; simp [collapseAux, spaceOnly]
  | cons c t ih =>
    intro b
    simp only [collapseAux]
    by_cases hsc : isSpc c
    · simp only [hsc, if_true]
      by_cases hb : b
      · simp only [hb, if_true]; exact ih true
      · simp only [hb, if_false]
        intro x hx hsx
        rcases List.mem_cons.mp hx with rfl | hx
        · rfl
        · exact ih true x hx hsx
    · simp only [hsc, Bool.false_eq_true, if_false]
      intro x hx hsx
      rcases List.mem_cons.mp hx with rfl | hx
      · exact absurd hsx (by simp [hsc])
      · exact ih false x hx hsx

theorem head_collapseAux_true (l : List Char) :
    ∀ c, (collapseAux true l).head? = some c → isSpc c = false := by
  induction l with
  | nil => intro c hc; simp [collapseAux] at hc
  | cons d t ih =>
    intro c hc
    simp only [collapseAux] at hc
    by_cases hsd : isSpc d
    · simp only [hsd, if_true] at hc; exact ih c hc
    · simp only [hsd, Bool.false_eq_true, if_false, List.head?_cons] at hc
      obtain rfl := Option.some.inj hc
      simpa using hsd

theorem noDup_collapseAux (l : List Char) : ∀ b, noDup (collapseAux b l) := by
  induction l with
  | nil => intro b; simp [collapseAux, noDup]
  | cons c t ih =>
    intro b
    simp only [collapseAux]
    by_cases hsc : isSpc c
    · simp only [hsc, if_true]
      by_cases hb : b
      · simp only [hb, if_true]; exact ih true
      · simp only [hb, Bool.false_eq_true, if_false]
        rw [noDup, List.chain'_cons']
        refine ⟨fun y hy => ?_, ih true⟩
        rintro ⟨-, hy'⟩
        exact isSpc_false_ne_space (head_collapseAux_true t y hy) hy'
    · simp only [hsc, Bool.false_eq_true, if_false]
      rw [noDup, List.chain'_cons']
      refine ⟨fun y hy => ?_, ih false⟩
      rintro ⟨hc', -⟩
      exact isSpc_false_ne_space (by simpa using hsc) hc'

theorem collapseAux_id (l : List Char) (h1 : spaceOnly l) (h2 : noDup l) :
    collapseAux false l = l ∧ (l.head? ≠ some ' ' → collapseAux true l = l) := by
  induction l with
  | nil => exact ⟨rfl, fun _ => rfl⟩
  | cons c t ih =>
    have h1t : spaceOnly t := fun x hx => h1 x (List.mem_cons_of_mem c hx)
    rw [noDup, List.chain'_cons'] at h2
    obtain ⟨hrel, h2t⟩ := h2
    obtain ⟨iht1, iht2⟩ := ih h1t h2t
    by_cases hsc : isSpc c
    · have hc : c = ' ' := h1 c (List.mem_cons_self c t) hsc
      subst hc
      have hth : t.head? ≠ some ' ' := by
        intro hh
        exact hrel ' ' hh ⟨rfl, rfl⟩
      constructor
      · show (if isSpc ' ' = true then if false = true then collapseAux true t
            else ' ' :: collapseAux true t else ' ' :: collapseAux false t) = ' ' :: t
        rw [if_pos (by decide : isSpc ' ' = true), if_neg (by decide : ¬(false = true))]
        rw [iht2 hth]
      · intro hhead
        exact absurd rfl hhead
    · constructor
      · simp only [collapseAux, hsc, Bool.false_eq_true, if_false]
        rw [iht1]
      · intro _
        simp only [collapseAux, hsc, Bool.false_eq_true, if_false]
        rw [iht1]



theorem dropWhile_id_of_head {p : Char → Bool} {l : List Char}
    (h : ∀ c, l.head? = some c → p c = false) : l.dropWhile p = l := by
  cases l with
  | nil => rfl
  | cons c t => rw [List.dropWhile_cons_of_neg]; simp [h c rfl]

theorem dropTrail_id_of_last {p : Char → Bool} {l : List Char}
    (h : ∀ c, l.getLast? = some c → p c = false) : dropTrail p l = l := by
  unfold dropTrail
  rw [dropWhile_id_of_head, List.reverse_reverse]
  intro c hc
  rw [List.head?_reverse] at hc
  exact h c hc

theorem head_dropWhile_false {p : Char → Bool} {l : List Char} {c : Char}
    (h : (l.dropWhile p).head? = some c) : p c = false := by
  have h' := List.head?_dropWhile_not p l
  rw [h] at h'
  exact h'

theorem last_dropTrail_false {p : Char → Bool} {l : List Char} {c : Char}
    (h : (dropTrail p l).getLast? = some c) : p c = false := by
  unfold dropTrail at h
  rw [List.getLast?_reverse] at h
  exact head_dropWhile_false h

theorem head_eq_of_front {l m : List Char} {c : Char} (h : m <+: l)
    (hm : m.head? = some c) : l.head? = some c := by
  obtain ⟨rest, rfl⟩ := h
  cases m with
  | nil => simp at hm
  | cons d t => simpa using hm

theorem head_dropTrail {p : Char → Bool} {l : List Char} {c : Char}
    (h : (dropTrail p l).head? = some c) : l.head? = some c := by
  refine head_eq_of_front ?_ h
  unfold dropTrail
  have hs : l.reverse.dropWhile p <:+ l.reverse := List.dropWhile_suffix p
  obtain ⟨pre, hpre⟩ := hs
  refine ⟨pre.reverse, ?_⟩
  have := congrArg List.reverse hpre
  rw [List.reverse_append, List.reverse_reverse] at this
  exact this

theorem head_puncTrim_false {l : List Char} {c : Char}
    (h : (puncTrim l).head? = some c) : isPunc c = false := by
  unfold puncTrim at h
  exact head_dropWhile_false (head_dropTrail h)

theorem last_puncTrim_false {l : List Char} {c : Char}
    (h : (puncTrim l).getLast? = some c) : isPunc c = false := by
  unfold puncTrim at h
  exact last_dropTrail_false h

theorem mem_dropTrail {p : Char → Bool} {l : List Char} {c : Char}
    (h : c ∈ dropTrail p l) : c ∈ l := by
  unfold dropTrail at h
  rw [List.mem_reverse] at h
  have := (List.dropWhile_sublist (l := l.reverse) p).subset h
  rwa [List.mem_reverse] at this

theorem spaceOnly_dropWhile {p : Char → Bool} {l : List Char} (h : spaceOnly l) :
    spaceOnly (l.dropWhile p) :=
  fun c hc => h c ((List.dropWhile_sublist p).subset hc)

theorem spaceOnly_dropTrail {p : Char → Bool} {l : List Char} (h : spaceOnly l) :
    spaceOnly (dropTrail p l) :=
  fun c hc => h c (mem_dropTrail hc)

theorem noDup_dropWhile {p : Char → Bool} {l : List Char} (h : noDup l) :
    noDup (l.dropWhile p) :=
  List.Chain'.suffix h (List.dropWhile_suffix p)

theorem noDup_dropTrail {p : Char → Bool} {l : List Char} (h : noDup l) :
    noDup (dropTrail p l) := by
  unfold noDup dropTrail
  rw [List.chain'_reverse]
  refine List.Chain'.suffix ?_ (List.dropWhile_suffix p)
  rw [List.chain'_reverse]
  exact h



theorem jsTrimL_id {l : List Char}
    (hh : ∀ c, l.head? = some c → isSpc c = false)
    (hl : ∀ c, l.getLast? = some c → isSpc c = false) : jsTrimL l = l := by
  unfold jsTrimL
  rw [dropWhile_id_of_head hh, dropTrail_id_of_last hl]

theorem puncTrim_id {l : List Char}
    (hh : ∀ c, l.head? = some c → isPunc c = false)
    (hl : ∀ c, l.getLast? = some c → isPunc c = false) : puncTrim l = l := by
  unfold puncTrim
  rw [dropWhile_id_of_head hh, dropTrail_id_of_last hl]

theorem extractTitle_def (t : String) :
    extractTitle t = String.mk (normTitle (stripAll t.data)) := rfl

theorem strData_mk (l : List Char) : (String.mk l).data = l := rfl

theorem normTitle_fixed (w : List Char) : normTitle (normTitle w) = normTitle w := by
  have hzso : spaceOnly (jsTrimL (collapseWs w)) :=
    spaceOnly_dropTrail (spaceOnly_dropWhile (spaceOnly_collapseAux w false))
  have hznd : noDup (jsTrimL (collapseWs w)) :=
    noDup_dropTrail (noDup_dropWhile (noDup_collapseAux w false))
  set u := puncTrim (jsTrimL (collapseWs w)) with hu
  have huso : spaceOnly u := spaceOnly_dropTrail (spaceOnly_dropWhile hzso)
  have hund : noDup u := noDup_dropTrail (noDup_dropWhile hznd)
  have huh : ∀ c, u.head? = some c → isPunc c = false := fun c hc =>
    head_puncTrim_false (hu ▸ hc)
  have hul : ∀ c, u.getLast? = some c → isPunc c = false := fun c hc =>
    last_puncTrim_false (hu ▸ hc)
  have hjsu : jsTrimL u = u :=
    jsTrimL_id (fun c hc => isPunc_elim_isSpc (huh c hc))
      (fun c hc => isPunc_elim_isSpc (hul c hc))
  have hN : normTitle w = capitalize u := by
    unfold normTitle
    rw [← hu, hjsu]
  rw [hN]
  cases hue : u with
  | nil => rfl
  | cons c t =>
    have hcp : isPunc c = false := huh c (by rw [hue]; rfl)
    have hcap : capitalize (c :: t) = upChar c :: t := rfl
    rw [hue] at huso hund huh hul
    rw [hcap]
    -- invariants of v := upChar c :: t
    have hvso : spaceOnly (upChar c :: t) := by
      intro x hx hsx
      rcases List.mem_cons.mp hx with rfl | hx
      · exact absurd hsx (by rw [isSpc_upChar_false hcp]; simp)
      · exact huso x (List.mem_cons_of_mem c hx) hsx
    have hvnd : noDup (upChar c :: t) := by
      rw [noDup, List.chain'_cons']
      rw [noDup, List.chain'_cons'] at hund
      refine ⟨fun y hy => ?_, hund.2⟩
      rintro ⟨hvc, -⟩
      have := isSpc_upChar_false hcp
      rw [hvc] at this
      simp [isSpc] at this
    have hvh : ∀ d, (upChar c :: t).head? = some d → isPunc d = false := by
      intro d hd
      obtain rfl := Option.some.inj hd
      exact isPunc_upChar_false hcp
    have hvl : ∀ d, (upChar c :: t).getLast? = some d → isPunc d = false := by
      intro d hd
      cases t with
      | nil =>
        simp only [List.getLast?_singleton] at hd
        obtain rfl := Option.some.inj hd
        exact isPunc_upChar_false hcp
      | cons e t' =>
        rw [List.getLast?_cons_cons] at hd
        exact hul d (by rw [List.getLast?_cons_cons]; exact hd)
    -- each normalisation pass fixes v
    unfold normTitle
    rw [show collapseWs (upChar c :: t) = upChar c :: t from
        (collapseAux_id _ hvso hvnd).1]
    rw [jsTrimL_id (fun d hd => isPunc_elim_isSpc (hvh d hd))
        (fun d hd => isPunc_elim_isSpc (hvl d hd))]
    rw [puncTrim_id hvh hvl]
    rw [jsTrimL_id (fun d hd => isPunc_elim_isSpc (hvh d hd))
        (fun d hd => isPunc_elim_isSpc (hvl d hd))]
    show upChar (upChar c) :: t = upChar c :: t
    rw [upChar_upChar]



theorem replAux_id (r : RE) (l : List Char) : ∀ (fuel : Nat) (p : Option Char),
    hasMAux r p l = false → replAux fuel r p l = l := by
  induction l with
  | nil => intro fuel p _; cases fuel <;> rfl
  | cons c t ih =>
    intro fuel p h
    rw [hasMAux, Bool.or_eq_false_iff] at h
    obtain ⟨h1, h2⟩ := h
    have hnone : (mtch r p (c :: t)).head? = none := by
      cases hm : (mtch r p (c :: t)).head? with
      | none => rfl
      | some q => rw [hm] at h1; simp at h1
    cases fuel with
    | zero => rfl
    | succ n =>
      rw [replAux, hnone, ih n (some c) h2]

theorem repl_id {r : RE} {l : List Char} (h : hasM r l = false) : repl r l = l :=
  replAux_id r l (l.length + 1) none h

/-- **C6, amended.** `extractTitle` is idempotent on every input whose
extracted title is clean — i.e. contains no occurrence of any of the seven
stripping patterns.  (The counterexample `"every tomorrow day"` shows this is
as much as holds: stripping can manufacture a new strippable phrase, and a
removed-once trailing preposition can expose another.) -/
theorem extractTitle_idempotent_of_clean (x : String)
    (h1 : hasM RECURRENCE_PHRASES (extractTitle x).data = false)
    (h2 : hasM TIME_PHRASES (extractTitle x).data = false)
    (h3 : hasM PRIORITY_PHRASES (extractTitle x).data = false)
    (h4 : hasM DATE_PHRASES (extractTitle x).data = false)
    (h5 : hasM CLOCK_TIMES (extractTitle x).data = false)
    (h6 : hasM TRAIL_PREP (extractTitle x).data = false)
    (h7 : hasM TRAIL_START (extractTitle x).data = false) :
    extractTitle (extractTitle x) = extractTitle x := by
  have hstrip : stripAll (extractTitle x).data = (extractTitle x).data := by
    unfold stripAll
    rw [repl_id h1, repl_id h2, repl_id h3, repl_id h4, repl_id h5, repl_id h6, repl_id h7]
  rw [extractTitle_def (extractTitle x), hstrip, extractTitle_def x, strData_mk,
      normTitle_fixed]

/-- Witness for the amended C6: `"buy milk urgent"` extracts to `"Buy milk"`,
which is clean, so a second extraction leaves it unchanged. -/
theorem extractTitle_idempotent_of_clean_witness :
    extractTitle (extractTitle "buy milk urgent") = extractTitle "buy milk urgent" :=
  extractTitle_idempotent_of_clean "buy milk urgent"
    (by decide) (by decide) (by decide) (by decide) (by decide) (by decide) (by decide)

/-- **C8, counterexample.** The claim reads `parsePriority` as literal phrase
containment: "high if the text contains any of urgent, high priority, …".
But the code's patterns put `\s*` between the words of multi-word keywords, so
`"use highpriority mode"` — which contains none of the nine listed phrases
verbatim and should therefore be `medium` under the claim — is classified
`high` (the regex `high\s*priority` matches `highpriority` with zero
whitespace). -/
theorem parsePriority_highpriority_counterexample :
    parsePriority "use highpriority mode" = Priority.high ∧
    (∀ w ∈ (["urgent", "high priority", "important", "asap", "critical",
             "low priority", "not urgent", "whenever", "no rush"] : List String),
      ¬ w.data <:+: ("use highpriority mode" : String).data) := ⟨rfl, by decide⟩

theorem catMap_append (f : α → List β) (l₁ l₂ : List α) :
    catMap f (l₁ ++ l₂) = catMap f l₁ ++ catMap f l₂ := by
  induction l₁ with
  | nil => rfl
  | cons x t ih => simp [catMap, ih, List.append_assoc]

theorem isSome_head?_append (l₁ l₂ : List α) :
    (l₁ ++ l₂).head?.isSome = (l₁.head?.isSome || l₂.head?.isSome) := by
  cases l₁ <;> simp

theorem mtch_seq_wordB (Y : RE) (p : Option Char) (s : List Char) :
    mtch (.seq .wordB Y) p s = if atBoundary p s then mtch Y p s else [] := by
  rw [mtch, mtch]
  split
  · rw [catMap, catMap, List.append_nil]
  · rfl

theorem mtch_seq_alt (a b Y : RE) (p : Option Char) (s : List Char) :
    mtch (.seq (.alt a b) Y) p s = mtch (.seq a Y) p s ++ mtch (.seq b Y) p s := by
  show catMap (fun q => mtch Y q.1 q.2) (mtch a p s ++ mtch b p s) =
    catMap (fun q => mtch Y q.1 q.2) (mtch a p s) ++ catMap (fun q => mtch Y q.1 q.2) (mtch b p s)
  rw [catMap_append]



theorem high_pointwise (p : Option Char) (s : List Char) :
    (mtch HIGH_PRIORITY_RE p s).head?.isSome =
      ((mtch (kwRE "urgent") p s).head?.isSome ||
       (mtch (kwFlex2 "high" "priority") p s).head?.isSome ||
       (mtch (kwRE "important") p s).head?.isSome ||
       (mtch (kwRE "asap") p s).head?.isSome ||
       (mtch (kwRE "critical") p s).head?.isSome) := by
  have e1 : HIGH_PRIORITY_RE = .seq .wordB (.seq
      (.alt (lit "urgent") (.alt (cat [lit "high", wsS, lit "priority"])
        (.alt (lit "important") (.alt (lit "asap") (lit "critical")))))
      (.seq .wordB .eps)) := rfl
  have e2 : kwRE "urgent" = .seq .wordB (.seq (lit "urgent") (.seq .wordB .eps)) := rfl
  have e3 : kwFlex2 "high" "priority" =
      .seq .wordB (.seq (cat [lit "high", wsS, lit "priority"]) (.seq .wordB .eps)) := rfl
  have e4 : kwRE "important" = .seq .wordB (.seq (lit "important") (.seq .wordB .eps)) := rfl
  have e5 : kwRE "asap" = .seq .wordB (.seq (lit "asap") (.seq .wordB .eps)) := rfl
  have e6 : kwRE "critical" = .seq .wordB (.seq (lit "critical") (.seq .wordB .eps)) := rfl
  rw [e1, e2, e3, e4, e5, e6]
  rw [mtch_seq_wordB, mtch_seq_wordB, mtch_seq_wordB, mtch_seq_wordB, mtch_seq_wordB,
      mtch_seq_wordB]
  cases hb : atBoundary p s
  · simp
  · simp only [if_true]
    rw [mtch_seq_alt, mtch_seq_alt, mtch_seq_alt, mtch_seq_alt]
    rw [isSome_head?_append, isSome_head?_append, isSome_head?_append, isSome_head?_append]
    simp [Bool.or_assoc]

theorem low_pointwise (p : Option Char) (s : List Char) :
    (mtch LOW_PRIORITY_RE p s).head?.isSome =
      ((mtch (kwFlex2 "low" "priority") p s).head?.isSome ||
       (mtch (kwFlex2 "not" "urgent") p s).head?.isSome ||
       (mtch (kwRE "whenever") p s).head?.isSome ||
       (mtch (kwFlex2 "no" "rush") p s).head?.isSome) := by
  have e1 : LOW_PRIORITY_RE = .seq .wordB (.seq
      (.alt (cat [lit "low", wsS, lit "priority"]) (.alt (cat [lit "not", wsS, lit "urgent"])
        (.alt (lit "whenever") (cat [lit "no", wsS, lit "rush"]))))
      (.seq .wordB .eps)) := rfl
  have e2 : kwFlex2 "low" "priority" =
      .seq .wordB (.seq (cat [lit "low", wsS, lit "priority"]) (.seq .wordB .eps)) := rfl
  have e3 : kwFlex2 "not" "urgent" =
      .seq .wordB (.seq (cat [lit "not", wsS, lit "urgent"]) (.seq .wordB .eps)) := rfl
  have e4 : kwRE "whenever" = .seq .wordB (.seq (lit "whenever") (.seq .wordB .eps)) := rfl
  have e5 : kwFlex2 "no" "rush" =
      .seq .wordB (.seq (cat [lit "no", wsS, lit "rush"]) (.seq .wordB .eps)) := rfl
  rw [e1, e2, e3, e4, e5]
  rw [mtch_seq_wordB, mtch_seq_wordB, mtch_seq_wordB, mtch_seq_wordB, mtch_seq_wordB]
  cases hb : atBoundary p s
  · simp
  · simp only [if_true]
    rw [mtch_seq_alt, mtch_seq_alt, mtch_seq_alt]
    rw [isSome_head?_append, isSome_head?_append, isSome_head?_append]
    simp [Bool.or_assoc]

theorem hasMAux_high_iff (s : List Char) : ∀ p, hasMAux HIGH_PRIORITY_RE p s = true ↔
    (hasMAux (kwRE "urgent") p s = true ∨ hasMAux (kwFlex2 "high" "priority") p s = true ∨
     hasMAux (kwRE "important") p s = true ∨ hasMAux (kwRE "asap") p s = true ∨
     hasMAux (kwRE "critical") p s = true) := by
  induction s with
  | nil =>
    intro p
    simp only [hasMAux, high_pointwise, Bool.or_eq_true]
    tauto
  | cons c t ih =>
    intro p
    simp only [hasMAux, high_pointwise, Bool.or_eq_true]
    rw [ih (some c)]
    tauto

theorem hasMAux_low_iff (s : List Char) : ∀ p, hasMAux LOW_PRIORITY_RE p s = true ↔
    (hasMAux (kwFlex2 "low" "priority") p s = true ∨
     hasMAux (kwFlex2 "not" "urgent") p s = true ∨
     hasMAux (kwRE "whenever") p s = true ∨ hasMAux (kwFlex2 "no" "rush") p s = true) := by
  induction s with
  | nil =>
    intro p
    simp only [hasMAux, low_pointwise, Bool.or_eq_true]
    tauto
  | cons c t ih =>
    intro p
    simp only [hasMAux, low_pointwise, Bool.or_eq_true]
    rw [ih (some c)]
    tauto

/-- **C8, amended.** `parsePriority` is total and decomposes exactly as the
claim describes once "contains keyword" is read as the code's flexible match
(word-boundary delimited, case-insensitive, any amount — including none — of
whitespace between the words of a multi-word keyword): high iff one of the
five high keywords matches; otherwise low iff one of the four low keywords
matches; otherwise medium.  High takes precedence when both sets match. -/
theorem parsePriority_keyword_decomposition (text : String) :
    (parsePriority text = Priority.high ↔ highKwHit (text.data.map lowChar)) ∧
    (parsePriority text = Priority.low ↔
      ¬ highKwHit (text.data.map lowChar) ∧ lowKwHit (text.data.map lowChar)) ∧
    (parsePriority text = Priority.medium ↔
      ¬ highKwHit (text.data.map lowChar) ∧ ¬ lowKwHit (text.data.map lowChar)) := by
  have hH : hasM HIGH_PRIORITY_RE (text.data.map lowChar) = true ↔
      highKwHit (text.data.map lowChar) := hasMAux_high_iff (text.data.map lowChar) none
  have hL : hasM LOW_PRIORITY_RE (text.data.map lowChar) = true ↔
      lowKwHit (text.data.map lowChar) := hasMAux_low_iff (text.data.map lowChar) none
  simp only [parsePriority]
  by_cases h1 : hasM HIGH_PRIORITY_RE (text.data.map lowChar) = true
  · simp only [h1, if_true]
    exact ⟨iff_of_true (by decide) (hH.mp h1),
           iff_of_false (by decide) (fun h => h.1 (hH.mp h1)),
           iff_of_false (by decide) (fun h => h.1 (hH.mp h1))⟩
  · have h1' : ¬ highKwHit (text.data.map lowChar) := fun hk => h1 (hH.mpr hk)
    simp only [Bool.not_eq_true] at h1
    simp only [h1, Bool.false_eq_true, if_false]
    by_cases h2 : hasM LOW_PRIORITY_RE (text.data.map lowChar) = true
    · simp only [h2, if_true]
      exact ⟨iff_of_false (by decide) h1',
             iff_of_true (by decide) ⟨h1', hL.mp h2⟩,
             iff_of_false (by decide) (fun h => h.2 (hL.mp h2))⟩
    · have h2' : ¬ lowKwHit (text.data.map lowChar) := fun hk => h2 (hL.mpr hk)
      simp only [Bool.not_eq_true] at h2
      simp only [h2, Bool.false_eq_true, if_false]
      exact ⟨iff_of_false (by decide) h1',
             iff_of_false (by decide) (fun h => h2' h.2),
             iff_of_true (by decide) ⟨h1', h2'⟩⟩

theorem joinParts_cons_cons (a b : String) (l : List String) :
    joinParts (a :: b :: l) = a ++ " · " ++ joinParts (b :: l) := rfl

theorem infix_joinParts {s : String} {parts : List String} (h : s ∈ parts) :
    s.data <:+: (joinParts parts).data := by
  induction parts with
  | nil => cases h
  | cons a rest ih =>
    cases rest with
    | nil =>
      rcases List.mem_singleton.mp h with rfl
      exact List.infix_refl _
    | cons b r' =>
      rw [joinParts_cons_cons]
      rcases List.mem_cons.mp h with rfl | h'
      · refine ⟨[], (" · " : String).data ++ (joinParts (b :: r')).data, ?_⟩
        simp [String.data_append, List.append_assoc]
      · have hi := ih h'
        refine hi.trans ⟨(a ++ " · ").data, [], ?_⟩
        simp [String.data_append]

theorem head_data_ne {s t : String} (h : s.data.head? ≠ t.data.head?) : s ≠ t :=
  fun he => h (by rw [he])



theorem head_data_of_append (a b : String) (c : Char) (h : a.data.head? = some c) :
    (a ++ b).data.head? = some c := by
  rw [String.data_append]
  cases hd : a.data with
  | nil => rw [hd] at h; cases h
  | cons x t => rw [hd] at h; simpa using h

/-- **C9.** For every `ParsedReminder` (and any host formatters),
`formatParsedSummary` returns — it is total, so it cannot throw — a string
that starts with the parsed title in double quotes followed by the `" · "`
separator; contains `repeating <type>` when a recurrence with interval 1 is
present and `repeating every <N> <units>` when the interval exceeds 1;
contains the `(<priority> priority)` component when the priority is not
medium; and, when the priority is medium, no component of the joined parts is
a priority suffix.  The string is `joinParts` — `parts.join(" · ")` — of the
components throughout. -/
theorem formatParsedSummary_shape (sameDay : Int → Int → Bool)
    (fmtTime fmtDate : Int → String) (now : Int) (p : ParsedReminder) :
    (∃ rest : String, formatParsedSummary sameDay fmtTime fmtDate now p =
        "\"" ++ p.title ++ "\"" ++ " · " ++ rest) ∧
    (∀ m, p.recurrence = some m →
      (m.interval = 1 →
        ("repeating " ++ recTypeStr m.type).data <:+:
          (formatParsedSummary sameDay fmtTime fmtDate now p).data) ∧
      (1 < m.interval →
        ("repeating every " ++ toString m.interval ++ " " ++ unitStr m.type).data <:+:
          (formatParsedSummary sameDay fmtTime fmtDate now p).data)) ∧
    (p.priority ≠ Priority.medium →
      ("(" ++ prioStr p.priority ++ " priority)").data <:+:
        (formatParsedSummary sameDay fmtTime fmtDate now p).data) ∧
    (p.priority = Priority.medium →
      ∀ pr : Priority, ("(" ++ prioStr pr ++ " priority)") ∉
        summaryParts sameDay fmtTime fmtDate now p) := by
  refine ⟨⟨_, rfl⟩, ?_, ?_, ?_⟩
  · intro m hm
    constructor
    · intro h1
      apply infix_joinParts
      simp [summaryParts, hm, h1]
    · intro h1
      have hne : ¬ m.interval = 1 := by omega
      apply infix_joinParts
      simp [summaryParts, hm, hne]
  · intro hp
    apply infix_joinParts
    simp [summaryParts, hp]
  · intro hp pr hmem
    simp only [summaryParts, hp, if_true, List.append_nil, List.cons_append,
      List.nil_append, List.mem_cons] at hmem
    rcases hmem with he | he | hrec
    · have h1 : ("(" ++ prioStr pr ++ " priority)").data.head? = some '(' :=
        head_data_of_append _ _ _ (head_data_of_append _ _ _ rfl)
      have h2 : ("\"" ++ p.title ++ "\"").data.head? = some '"' :=
        head_data_of_append _ _ _ (head_data_of_append _ _ _ rfl)
      rw [he] at h1
      rw [h1] at h2
      cases h2
    · by_cases hc1 : sameDay p.datetime now
      · rw [if_pos hc1] at he
        have h1 : ("(" ++ prioStr pr ++ " priority)").data.head? = some '(' :=
          head_data_of_append _ _ _ (head_data_of_append _ _ _ rfl)
        have h2 : ("today at " ++ fmtTime p.datetime).data.head? = some 't' :=
          head_data_of_append _ _ _ rfl
        rw [he] at h1
        rw [h1] at h2
        cases h2
      · rw [if_neg hc1] at he
        by_cases hc2 : sameDay p.datetime (now + msPerDay)
        · rw [if_pos hc2] at he
          have h1 : ("(" ++ prioStr pr ++ " priority)").data.head? = some '(' :=
            head_data_of_append _ _ _ (head_data_of_append _ _ _ rfl)
          have h2 : ("tomorrow at " ++ fmtTime p.datetime).data.head? = some 't' :=
            head_data_of_append _ _ _ rfl
          rw [he] at h1
          rw [h1] at h2
          cases h2
        · rw [if_neg hc2] at he
          have hinf : (" at " : String).data <:+: ("(" ++ prioStr pr ++ " priority)").data := by
            rw [he]
            refine ⟨(fmtDate p.datetime).data, (fmtTime p.datetime).data, ?_⟩
            simp [String.data_append, List.append_assoc]
          cases pr <;> revert hinf <;> decide
    · cases hr : p.recurrence with
      | none => rw [hr] at hrec; cases hrec
      | some m =>
        rw [hr] at hrec
        by_cases hi : m.interval = 1
        · simp only [if_pos hi] at hrec
          rcases List.mem_singleton.mp hrec with he
          have h1 : ("(" ++ prioStr pr ++ " priority)").data.head? = some '(' :=
            head_data_of_append _ _ _ (head_data_of_append _ _ _ rfl)
          have h2 : ("repeating " ++ recTypeStr m.type).data.head? = some 'r' :=
            head_data_of_append _ _ _ rfl
          rw [he] at h1
          rw [h1] at h2
          cases h2
        · simp only [if_neg hi] at hrec
          rcases List.mem_singleton.mp hrec with he
          have h1 : ("(" ++ prioStr pr ++ " priority)").data.head? = some '(' :=
            head_data_of_append _ _ _ (head_data_of_append _ _ _ rfl)
          have h2 : ("repeating every " ++ toString m.interval ++ " " ++ unitStr m.type).data.head? =
              some 'r' :=
            head_data_of_append _ _ _ (head_data_of_append _ _ _ (head_data_of_append _ _ _ rfl))
          rw [he] at h1
          rw [h1] at h2
          cases h2



/-- Witness for C9 at a concrete reminder: a title `"Water plants"`, a
3-day recurrence and high priority; the summary carries the quoted title, the
`repeating every 3 days` component and the `(high priority)` suffix. -/
theorem formatParsedSummary_shape_witness :
    (∃ rest : String,
      formatParsedSummary (fun _ _ => true) (fun _ => "8:00 AM") (fun _ => "Mon, Mar 3") 0
          ⟨"Water plants", 0, some ⟨RecurrenceType.daily, 3⟩, Priority.high, 1⟩ =
        "\"" ++ "Water plants" ++ "\"" ++ " · " ++ rest) ∧
    ("repeating every " ++ toString (3 : Nat) ++ " " ++ unitStr RecurrenceType.daily).data <:+:
      (formatParsedSummary (fun _ _ => true) (fun _ => "8:00 AM") (fun _ => "Mon, Mar 3") 0
        ⟨"Water plants", 0, some ⟨RecurrenceType.daily, 3⟩, Priority.high, 1⟩).data ∧
    ("(" ++ prioStr Priority.high ++ " priority)").data <:+:
      (formatParsedSummary (fun _ _ => true) (fun _ => "8:00 AM") (fun _ => "Mon, Mar 3") 0
        ⟨"Water plants", 0, some ⟨RecurrenceType.daily, 3⟩, Priority.high, 1⟩).data := by
  obtain ⟨h1, h2, h3, -⟩ := formatParsedSummary_shape (fun _ _ => true) (fun _ => "8:00 AM")
    (fun _ => "Mon, Mar 3") 0 ⟨"Water plants", 0, some ⟨RecurrenceType.daily, 3⟩, Priority.high, 1⟩
  exact ⟨h1, (h2 ⟨RecurrenceType.daily, 3⟩ rfl).2 (by decide), h3 (by decide)⟩

end VersoNLP
